import Mathlib

/-!
Verification of the resor-planner apply-planner core (`src/apply_planner.py`).

The planner receives a current-state collection, a target collection and a
changed-name set, and computes an ordered list of create/delete operations.
The Python recursion (`_apply_resource`, `_plan_create`, `_plan_delete`) is
embedded as a fuel-indexed interpreter `run` over a defunctionalised call
type; `planFull` embeds `ApplyPlanner.plan` (cycle validation, sorted
specifier seeding, backfill pass, first-occurrence deduplication).
-/

namespace ResorPlanner

/-- A planned operation: `"+name"` (create) or `"-name"` (delete) in the
Python encoding. -/
inductive Op where
  | create (name : String)
  | delete (name : String)
deriving DecidableEq, Repr

/-- A resource record: ordered dependency and tool name lists
(the `TR` dataclass of the tests; the planner reads `.deps`/`.tools`). -/
structure Resource where
  deps : List String
  tools : List String
deriving DecidableEq, Repr

/-- A collection (Python `dict[str, Resource]`), as an insertion-ordered
association list with unique keys. -/
abbrev Coll := List (String × Resource)

/-- The planner's constructor inputs: `state` (current), `target`, `changed`. -/
structure Inp where
  state : Coll
  target : Coll
  changed : List String
deriving Repr

/-- The key list of a collection, in insertion order (`dict` iteration). -/
def keys (c : Coll) : List String := c.map (fun p => p.1)

/-- Predecessors of `n` in the delete-deps graph: current resources listing
`n` in `deps` (edge consumer→dependency; `nx` predecessor order is the
state-insertion order). -/
def delPreds (state : Coll) (n : String) : List String :=
  (state.filter (fun p => p.2.deps.contains n)).map (fun p => p.1)

/-- Predecessors of `n` in the tools graph: current resources listing `n` in
`tools`. -/
def toolPreds (state : Coll) (n : String) : List String :=
  (state.filter (fun p => p.2.tools.contains n)).map (fun p => p.1)

/-- `n in self._tools_deps_graph`: `n` is a node of the tools graph, i.e. it
is an endpoint of some tool edge added from the current state. -/
def toolNode (state : Coll) (n : String) : Bool :=
  state.any (fun p => (!p.2.tools.isEmpty && p.1 == n) || p.2.tools.contains n)

/-- Successors of `n` in the composed (deps ∪ tools) graph over the current
state, used by `_validate_acyclic`. -/
def unionSuccs (state : Coll) (n : String) : List String :=
  match state.lookup n with
  | some r => r.deps ++ r.tools
  | none => []

/-- One edge of the composed current-state graph. -/
def unionStep (state : Coll) (a b : String) : Prop := b ∈ unionSuccs state a

/-- Bounded reachability in the composed graph: a directed path of between 1
and `fuel` edges from `a` to `b`. -/
def creachN (state : Coll) : Nat → String → String → Bool
  | 0, _, _ => false
  | fuel + 1, a, b =>
      (unionSuccs state a).any (fun c => c == b || creachN state fuel c b)

/-- `nx.find_cycle` on the composed graph found a cycle: some node reaches
itself (a minimal cycle has at most `state.length` edges). -/
def hasCycle (state : Coll) : Bool :=
  (keys state).any (fun n => creachN state state.length n n)

/-- The resource definition used by `_plan_create`: the target entry,
falling back to the current state on `KeyError`. -/
def createLookup (P : Inp) (n : String) : Option Resource :=
  match P.target.lookup n with
  | some r => some r
  | none => P.state.lookup n

/-- Planner failure modes: the `ValueError` of `_validate_acyclic`, a failed
`assert`, or fuel exhaustion of the embedding (the Python recursion has no
such bound; every claim is stated for runs that return a result). -/
inductive PlanErr where
  | cycleDetected
  | assertionFailed
  | outOfFuel
deriving DecidableEq, Repr

instance {e a : Type} [DecidableEq e] [DecidableEq a] : DecidableEq (Except e a) := fun x y =>
  match x, y with
  | .error u, .error v =>
    match decEq u v with
    | isTrue h => isTrue (by rw [h])
    | isFalse h => isFalse (by intro hc; cases hc; exact h rfl)
  | .error _, .ok _ => isFalse (by intro hc; cases hc)
  | .ok _, .error _ => isFalse (by intro hc; cases hc)
  | .ok u, .ok v =>
    match decEq u v with
    | isTrue h => isTrue (by rw [h])
    | isFalse h => isFalse (by intro hc; cases hc; exact h rfl)

/-- Mutable working state of one planning invocation: the `_applied` memo
set and the accumulating operation list `plan`. -/
structure PState where
  applied : List String
  plan : List Op
deriving DecidableEq, Repr

/-- Defunctionalised call sites of the mutual Python recursion:
`_apply_resource`, its loop over a name list, `_plan_create`,
`_plan_delete`, the recursive loop over delete-graph predecessors, and the
discard/apply loop over the deleted resource's own tools. -/
inductive Call where
  | applyRes (name : String)
  | applyMany (names : List String)
  | createRes (name : String)
  | deleteRes (name : String)
  | deleteMany (names : List String)
  | deleteTools (name : String) (tools : List String)

/-- The planning recursion of `ApplyPlanner`, fuel-indexed.
`applyRes` is `_apply_resource`: skip if memoised, mark applied, then
delete (absent from target), delete-then-create (changed), create (absent
from state), or nothing. `createRes` is `_plan_create` (assert, resolve
tools then deps, append `+name`). `deleteRes` is `_plan_delete` (assert,
resolve tool-graph predecessors when `name` is a tools-graph node, force
delete-graph predecessors, discard-and-resolve each own tool, append
`-name`). -/
def run (P : Inp) : Nat → Call → PState → Except PlanErr PState
  | 0, _, _ => Except.error .outOfFuel
  | fuel + 1, .applyRes n, st =>
      if n ∈ st.applied then Except.ok st
      else
        if n ∉ keys P.target then
          run P fuel (.deleteRes n) { st with applied := n :: st.applied }
        else if n ∈ P.changed then
          run P fuel (.deleteRes n) { st with applied := n :: st.applied } >>= fun st2 =>
          run P fuel (.createRes n) st2
        else if n ∉ keys P.state then
          run P fuel (.createRes n) { st with applied := n :: st.applied }
        else Except.ok { st with applied := n :: st.applied }
  | fuel + 1, .applyMany ns, st =>
      match ns with
      | [] => Except.ok st
      | n :: rest =>
          run P fuel (.applyRes n) st >>= fun st1 =>
          run P fuel (.applyMany rest) st1
  | fuel + 1, .createRes n, st =>
      match createLookup P n with
      | none => Except.error .assertionFailed
      | some r =>
          run P fuel (.applyMany r.tools) st >>= fun st1 =>
          run P fuel (.applyMany r.deps) st1 >>= fun st2 =>
          Except.ok { st2 with plan := st2.plan ++ [Op.create n] }
  | fuel + 1, .deleteRes n, st =>
      match P.state.lookup n with
      | none => Except.error .assertionFailed
      | some r =>
          (if toolNode P.state n then run P fuel (.applyMany (toolPreds P.state n)) st
           else Except.ok st) >>= fun st1 =>
          run P fuel (.deleteMany (delPreds P.state n)) st1 >>= fun st2 =>
          run P fuel (.deleteTools n r.tools) st2 >>= fun st3 =>
          Except.ok { st3 with plan := st3.plan ++ [Op.delete n] }
  | fuel + 1, .deleteMany ns, st =>
      match ns with
      | [] => Except.ok st
      | n :: rest =>
          run P fuel (.deleteRes n) st >>= fun st1 =>
          run P fuel (.deleteMany rest) st1
  | fuel + 1, .deleteTools n ts, st =>
      match ts with
      | [] => Except.ok st
      | t :: rest =>
          run P fuel (.applyRes t) { st with applied := st.applied.erase n } >>= fun st1 =>
          run P fuel (.deleteTools n rest) st1

/-- Lexicographic ≤ on code-point lists (Python string comparison). -/
def leChars : List Char → List Char → Bool
  | [], _ => true
  | _ :: _, [] => false
  | a :: as, b :: bs =>
      if a.toNat < b.toNat then true
      else if b.toNat < a.toNat then false
      else leChars as bs

/-- Lexicographic ≤ on strings by code points, as Python compares names. -/
def strLe (a b : String) : Bool := leChars a.data b.data

/-- Insert a string into a ≤-sorted list (helper for `sortStr`). -/
def insertStr (s : String) : List String → List String
  | [] => [s]
  | t :: ts => if strLe s t then s :: t :: ts else t :: insertStr s ts

/-- Lexicographic string sort, the embedding of Python `sorted` on names. -/
def sortStr (l : List String) : List String := l.foldr insertStr []

/-- `self._target.keys() | self._state.keys()` as a duplicate-free list
(the sort applied afterwards makes the set order irrelevant). -/
def defaultNames (P : Inp) : List String := (keys P.target ++ keys P.state).dedup

/-- The backfill pass: for each target name (in insertion order), if the
accumulated plan deletes it but never creates it, append a creation. -/
def backfill (targetKeys : List String) (pl : List Op) : List Op :=
  match targetKeys with
  | [] => pl
  | n :: rest =>
      backfill rest (if Op.delete n ∈ pl ∧ Op.create n ∉ pl then pl ++ [Op.create n] else pl)

/-- The final generator loop: emit each operation only at its first
occurrence (`visited` accumulates everything seen). -/
def pdedup (visited : List Op) : List Op → List Op
  | [] => []
  | e :: rest =>
      if e ∈ visited then pdedup (e :: visited) rest
      else e :: pdedup (e :: visited) rest

/-- `sorted(specifiers or self._target.keys() | self._state.keys())`: a
`None` or empty (falsy) specifier list falls back to the union of names. -/
def planSpecs (P : Inp) (specifiers : Option (List String)) : List String :=
  sortStr (match specifiers with
    | none => defaultNames P
    | some [] => defaultNames P
    | some (s :: rest) => s :: rest)

/-- `ApplyPlanner.plan(specifiers)`: validate acyclicity of the composed
current-state graph, clear the `_applied` memo left by a previous
invocation (`_appliedPrev` is therefore ignored), seed with the sorted
specifiers, then backfill and deduplicate. Returns the emitted operation
sequence together with the memo contents left for the next invocation. -/
def planFull (P : Inp) (_appliedPrev : List String) (specifiers : Option (List String))
    (fuel : Nat) : Except PlanErr (List Op × List String) :=
  if hasCycle P.state then Except.error .cycleDetected
  else
    match run P fuel (.applyMany (planSpecs P specifiers)) { applied := [], plan := [] } with
    | .error e => .error e
    | .ok st => .ok (pdedup [] (backfill (keys P.target) st.plan), st.applied)

/-- A plan list extended on the right: the recursion only appends. -/
def Extends (p q : List Op) : Prop := ∃ ext, q = p ++ ext

/-- Every occurrence of `x` in `l` has an occurrence of `y` strictly before
it (so in particular the first `x`, if any, comes after some `y`). -/
def beforeFirst (y x : Op) (l : List Op) : Prop :=
  ∀ l1 l2, l = l1 ++ x :: l2 → y ∈ l1

/-- Every occurrence of `x` in `l` has an occurrence of `y` at or before it. -/
def beforeFirstLe (y x : Op) (l : List Op) : Prop :=
  ∀ l1 l2, l = l1 ++ x :: l2 → y ∈ l1 ∨ y = x

end ResorPlanner

namespace ResorPlanner

/-! ### Association-list, `Except` and `Extends` plumbing -/

theorem keys_cons (p : String × Resource) (c : Coll) : keys (p :: c) = p.1 :: keys c := rfl

theorem lookup_mem {c : Coll} {n : String} {r : Resource}
    (h : c.lookup n = some r) : (n, r) ∈ c := by
  induction c with
  | nil => simp [List.lookup] at h
  | cons p rest ih =>
    obtain ⟨k, v⟩ := p
    simp only [List.lookup] at h
    split at h
    · next heq =>
      cases h
      have hk : n = k := eq_of_beq heq
      subst hk
      exact List.mem_cons_self _ _
    · next heq => exact List.mem_cons_of_mem _ (ih h)

theorem mem_keys_of_lookup {c : Coll} {n : String} {r : Resource}
    (h : c.lookup n = some r) : n ∈ keys c := by
  have hm := lookup_mem h
  exact List.mem_map_of_mem (fun p => p.1) hm

theorem lookup_none_iff {c : Coll} {n : String} : c.lookup n = none ↔ n ∉ keys c := by
  induction c with
  | nil => simp [List.lookup, keys]
  | cons p rest ih =>
    obtain ⟨k, v⟩ := p
    simp only [List.lookup, keys_cons, List.mem_cons]
    split
    · next heq =>
      constructor
      · intro h; cases h
      · intro h; exact absurd (Or.inl (eq_of_beq heq)) h
    · next heq =>
      rw [ih]
      have hk : n ≠ k := fun he => by
        subst he; simp at heq
      constructor
      · intro h hor
        rcases hor with h1 | h2
        · exact hk h1
        · exact h h2
      · intro h h2; exact h (Or.inr h2)

theorem lookup_some_of_mem_keys {c : Coll} {n : String} (h : n ∈ keys c) :
    ∃ r, c.lookup n = some r := by
  cases hl : c.lookup n with
  | none => exact absurd h (lookup_none_iff.mp hl)
  | some r => exact ⟨r, rfl⟩

theorem mem_delPreds {state : Coll} {A B : String} {rB : Resource}
    (h : state.lookup B = some rB) (hd : A ∈ rB.deps) : B ∈ delPreds state A := by
  refine List.mem_map.mpr ⟨(B, rB), List.mem_filter.mpr ⟨lookup_mem h, ?_⟩, rfl⟩
  simpa using hd

theorem bind_ok_iff {a b : Type} {x : Except PlanErr a} {g : a → Except PlanErr b}
    {v : b} : x >>= g = Except.ok v ↔ ∃ u, x = Except.ok u ∧ g u = Except.ok v := by
  cases x <;> simp [Bind.bind, Except.bind]

theorem extends_refl (p : List Op) : Extends p p := ⟨[], by simp⟩

theorem extends_trans {p q r : List Op} (h1 : Extends p q) (h2 : Extends q r) :
    Extends p r := by
  obtain ⟨e1, he1⟩ := h1
  obtain ⟨e2, he2⟩ := h2
  exact ⟨e1 ++ e2, by simp [he2, he1]⟩

theorem extends_append (p : List Op) (l : List Op) : Extends p (p ++ l) := ⟨l, rfl⟩

theorem extends_mem {p q : List Op} (h : Extends p q) {x : Op} (hx : x ∈ p) : x ∈ q := by
  obtain ⟨e, he⟩ := h
  subst he
  exact List.mem_append_left _ hx

theorem extends_not_mem {p q : List Op} (h : Extends p q) {x : Op} (hx : x ∉ q) : x ∉ p :=
  fun hc => hx (extends_mem h hc)

/-! ### Monotonicity of the recursion: the plan is append-only -/

theorem run_extends (P : Inp) :
    ∀ (f : Nat) (c : Call) (st st' : PState),
      run P f c st = .ok st' → Extends st.plan st'.plan := by
  intro f
  induction f with
  | zero => intro c st st' h; simp [run] at h
  | succ f ih =>
    intro c st st' h
    cases c with
    | applyRes n =>
      rw [run] at h
      split at h
      · cases h; exact extends_refl _
      · split at h
        · have e := ih _ _ _ h
          exact e
        · split at h
          · rw [bind_ok_iff] at h
            obtain ⟨st2, h1, h2⟩ := h
            have e1 := ih _ _ _ h1
            exact extends_trans e1 (ih _ _ _ h2)
          · split at h
            · have e := ih _ _ _ h
              exact e
            · cases h; exact extends_refl _
    | applyMany ns =>
      cases ns with
      | nil => rw [run] at h; cases h; exact extends_refl _
      | cons n rest =>
        rw [run] at h
        rw [bind_ok_iff] at h
        obtain ⟨st1, h1, h2⟩ := h
        exact extends_trans (ih _ _ _ h1) (ih _ _ _ h2)
    | createRes n =>
      rw [run] at h
      split at h
      · cases h
      · rw [bind_ok_iff] at h
        obtain ⟨st1, h1, h⟩ := h
        rw [bind_ok_iff] at h
        obtain ⟨st2, h2, h3⟩ := h
        cases h3
        exact extends_trans (ih _ _ _ h1)
          (extends_trans (ih _ _ _ h2) (extends_append _ _))
    | deleteRes n =>
      rw [run] at h
      split at h
      · cases h
      · rw [bind_ok_iff] at h
        obtain ⟨st1, h1, h⟩ := h
        rw [bind_ok_iff] at h
        obtain ⟨st2, h2, h⟩ := h
        rw [bind_ok_iff] at h
        obtain ⟨st3, h3, h4⟩ := h
        cases h4
        have e1 : Extends st.plan st1.plan := by
          split at h1
          · exact ih _ _ _ h1
          · cases h1; exact extends_refl _
        exact extends_trans e1 (extends_trans (ih _ _ _ h2)
          (extends_trans (ih _ _ _ h3) (extends_append _ _)))
    | deleteMany ns =>
      cases ns with
      | nil => rw [run] at h; cases h; exact extends_refl _
      | cons n rest =>
        rw [run] at h
        rw [bind_ok_iff] at h
        obtain ⟨st1, h1, h2⟩ := h
        exact extends_trans (ih _ _ _ h1) (ih _ _ _ h2)
    | deleteTools n ts =>
      cases ts with
      | nil => rw [run] at h; cases h; exact extends_refl _
      | cons t rest =>
        rw [run] at h
        rw [bind_ok_iff] at h
        obtain ⟨st1, h1, h2⟩ := h
        have e1 := ih _ _ _ h1
        exact extends_trans e1 (ih _ _ _ h2)

/-- `_plan_delete` always appends its own `Delete(name)` last. -/
theorem run_deleteRes_plan (P : Inp) {f : Nat} {n : String} {st st' : PState}
    (h : run P f (.deleteRes n) st = .ok st') :
    ∃ pre, st'.plan = pre ++ [Op.delete n] := by
  cases f with
  | zero => simp [run] at h
  | succ f =>
    rw [run] at h
    split at h
    · cases h
    · rw [bind_ok_iff] at h
      obtain ⟨st1, h1, h⟩ := h
      rw [bind_ok_iff] at h
      obtain ⟨st2, h2, h⟩ := h
      rw [bind_ok_iff] at h
      obtain ⟨st3, h3, h4⟩ := h
      cases h4
      exact ⟨st3.plan, rfl⟩

theorem run_deleteRes_mem (P : Inp) {f : Nat} {n : String} {st st' : PState}
    (h : run P f (.deleteRes n) st = .ok st') : Op.delete n ∈ st'.plan := by
  obtain ⟨pre, hp⟩ := run_deleteRes_plan P h
  simp [hp]

/-- `_plan_delete` asserts its argument exists in the current state. -/
theorem run_deleteRes_inState (P : Inp) {f : Nat} {n : String} {st st' : PState}
    (h : run P f (.deleteRes n) st = .ok st') : n ∈ keys P.state := by
  cases f with
  | zero => simp [run] at h
  | succ f =>
    rw [run] at h
    split at h
    · cases h
    · next r heq => exact mem_keys_of_lookup heq

/-- The loop over delete-graph predecessors deletes every one of them. -/
theorem run_deleteMany_mem (P : Inp) :
    ∀ (f : Nat) (ns : List String) (st st' : PState),
      run P f (.deleteMany ns) st = .ok st' → ∀ d ∈ ns, Op.delete d ∈ st'.plan := by
  intro f
  induction f with
  | zero => intro ns st st' h; simp [run] at h
  | succ f ih =>
    intro ns st st' h d hd
    cases ns with
    | nil => cases hd
    | cons n rest =>
      rw [run] at h
      rw [bind_ok_iff] at h
      obtain ⟨st1, h1, h2⟩ := h
      rcases List.mem_cons.mp hd with h | h
      · subst h
        exact extends_mem (run_extends P _ _ _ _ h2) (run_deleteRes_mem P h1)
      · exact ih _ _ _ h2 d h

end ResorPlanner

namespace ResorPlanner

/-! ### Ordering predicates: append and cons lemmas -/

theorem beforeFirst_nil (y x : Op) : beforeFirst y x [] := by
  intro l1 l2 h
  exact absurd h (by simp)

theorem beforeFirstLe_nil (y x : Op) : beforeFirstLe y x [] := by
  intro l1 l2 h
  exact absurd h (by simp)

theorem beforeFirst_append {y x : Op} {l : List Op} (h : beforeFirst y x l) (z : Op)
    (hz : z = x → y ∈ l) : beforeFirst y x (l ++ [z]) := by
  intro l1 l2 heq
  rcases List.eq_nil_or_concat l2 with h2 | ⟨l2i, zl, rfl⟩
  · subst h2
    obtain ⟨he1, he2⟩ := List.append_inj' heq rfl
    subst he1
    have : z = x := by simpa using he2
    exact hz this
  · have heq2 : l ++ [z] = (l1 ++ x :: l2i) ++ [zl] := by
      simpa [List.append_assoc] using heq
    obtain ⟨he1, he2⟩ := List.append_inj' heq2 rfl
    exact h l1 l2i he1

theorem beforeFirstLe_append {y x : Op} {l : List Op} (h : beforeFirstLe y x l) (z : Op)
    (hz : z = x → (y ∈ l ∨ y = x)) : beforeFirstLe y x (l ++ [z]) := by
  intro l1 l2 heq
  rcases List.eq_nil_or_concat l2 with h2 | ⟨l2i, zl, rfl⟩
  · subst h2
    obtain ⟨he1, he2⟩ := List.append_inj' heq rfl
    subst he1
    have hzx : z = x := by simpa using he2
    exact hz hzx
  · have heq2 : l ++ [z] = (l1 ++ x :: l2i) ++ [zl] := by
      simpa [List.append_assoc] using heq
    obtain ⟨he1, he2⟩ := List.append_inj' heq2 rfl
    exact h l1 l2i he1

theorem beforeFirst_of_cons {y x e : Op} {rest : List Op}
    (h : beforeFirst y x (e :: rest)) (hne : y ≠ e) : beforeFirst y x rest := by
  intro l1 l2 heq
  have hm := h (e :: l1) l2 (by simp [heq])
  rcases List.mem_cons.mp hm with h1 | h1
  · exact absurd h1 hne
  · exact h1

theorem beforeFirstLe_of_cons {y x e : Op} {rest : List Op}
    (h : beforeFirstLe y x (e :: rest)) (hne : y ≠ e) : beforeFirstLe y x rest := by
  intro l1 l2 heq
  rcases h (e :: l1) l2 (by simp [heq]) with h1 | h1
  · rcases List.mem_cons.mp h1 with h2 | h2
    · exact absurd h2 hne
    · exact Or.inl h2
  · exact Or.inr h1

theorem beforeFirst_mem {y x : Op} {l : List Op} (h : beforeFirst y x l)
    (hx : x ∈ l) : y ∈ l := by
  obtain ⟨l1, l2, rfl⟩ := List.append_of_mem hx
  exact List.mem_append_left _ (h l1 l2 rfl)

theorem beforeFirstLe_mem {y x : Op} {l : List Op} (h : beforeFirstLe y x l)
    (hx : x ∈ l) : y ∈ l := by
  obtain ⟨l1, l2, rfl⟩ := List.append_of_mem hx
  rcases h l1 l2 rfl with h1 | h1
  · exact List.mem_append_left _ h1
  · subst h1
    exact hx

/-! ### The deduplicating emission loop -/

theorem pdedup_mem : ∀ (v l : List Op) (x : Op), x ∈ pdedup v l ↔ x ∈ l ∧ x ∉ v := by
  intro v l
  induction l generalizing v with
  | nil => intro x; simp [pdedup]
  | cons e rest ih =>
    intro x
    rw [pdedup]
    split
    · next he =>
      rw [ih]
      simp only [List.mem_cons]
      constructor
      · rintro ⟨hr, hnv⟩
        push_neg at hnv
        exact ⟨Or.inr hr, hnv.2⟩
      · rintro ⟨hor, hnv⟩
        rcases hor with rfl | hr
        · exact absurd he hnv
        · refine ⟨hr, ?_⟩
          push_neg
          exact ⟨fun hxe => hnv (hxe ▸ he), hnv⟩
    · next he =>
      by_cases hxe : x = e
      · subst hxe
        constructor
        · intro _
          exact ⟨List.mem_cons_self _ _, he⟩
        · intro _
          exact List.mem_cons_self _ _
      · constructor
        · intro h1
          rcases List.mem_cons.mp h1 with h2 | h2
          · exact absurd h2 hxe
          · obtain ⟨hr, hnv⟩ := (ih (e :: v) x).mp h2
            have hnv2 : x ∉ v := fun hv => hnv (List.mem_cons_of_mem _ hv)
            exact ⟨List.mem_cons_of_mem _ hr, hnv2⟩
        · rintro ⟨h1, hnv⟩
          rcases List.mem_cons.mp h1 with h2 | h2
          · exact absurd h2 hxe
          · refine List.mem_cons_of_mem _ ((ih (e :: v) x).mpr ⟨h2, ?_⟩)
            intro hv
            rcases List.mem_cons.mp hv with h3 | h3
            · exact hxe h3
            · exact hnv h3

theorem pdedup_nodup : ∀ (v l : List Op), (pdedup v l).Nodup := by
  intro v l
  induction l generalizing v with
  | nil => simp [pdedup]
  | cons e rest ih =>
    rw [pdedup]
    split
    · exact ih _
    · refine List.nodup_cons.mpr ⟨?_, ih _⟩
      intro hmem
      have := (pdedup_mem _ _ _).mp hmem
      exact this.2 (List.mem_cons_self _ _)

theorem pdedup_beforeFirst {y x : Op} :
    ∀ (v l : List Op), y ∉ v → beforeFirst y x l → beforeFirst y x (pdedup v l) := by
  intro v l
  induction l generalizing v with
  | nil => intro _ _; rw [pdedup]; exact beforeFirst_nil y x
  | cons e rest ih =>
    intro hyv h
    rw [pdedup]
    split
    · next he =>
      have hye : y ≠ e := fun hq => hyv (hq ▸ he)
      exact ih _ (by simp [List.mem_cons]; push_neg; exact ⟨hye, hyv⟩)
        (beforeFirst_of_cons h hye)
    · next he =>
      by_cases hex : e = x
      · subst hex
        exact absurd (h [] rest rfl) (by simp)
      · by_cases hey : e = y
        · subst hey
          intro l1 l2 heq
          cases l1 with
          | nil =>
            simp only [List.nil_append] at heq
            exact absurd (List.cons.inj heq).1 hex
          | cons a l1i =>
            obtain ⟨ha, _⟩ := List.cons.inj heq
            subst ha
            exact List.mem_cons_self _ _
        · have hyne : y ≠ e := fun hq => hey hq.symm
          have ihr := ih (e :: v)
            (by simp [List.mem_cons]; push_neg; exact ⟨hyne, hyv⟩)
            (beforeFirst_of_cons h hyne)
          intro l1 l2 heq
          cases l1 with
          | nil =>
            simp only [List.nil_append] at heq
            exact absurd (List.cons.inj heq).1 hex
          | cons a l1i =>
            obtain ⟨ha, hrest⟩ := List.cons.inj heq
            subst ha
            exact List.mem_cons_of_mem _ (ihr l1i l2 hrest)

theorem pdedup_beforeFirstLe {y x : Op} :
    ∀ (v l : List Op), y ∉ v → beforeFirstLe y x l → beforeFirstLe y x (pdedup v l) := by
  intro v l
  induction l generalizing v with
  | nil => intro _ _; rw [pdedup]; exact beforeFirstLe_nil y x
  | cons e rest ih =>
    intro hyv h
    rw [pdedup]
    split
    · next he =>
      have hye : y ≠ e := fun hq => hyv (hq ▸ he)
      exact ih _ (by simp [List.mem_cons]; push_neg; exact ⟨hye, hyv⟩)
        (beforeFirstLe_of_cons h hye)
    · next he =>
      by_cases hex : e = x
      · subst hex
        rcases h [] rest rfl with h0 | h0
        · exact absurd h0 (by simp)
        · subst h0
          intro l1 l2 heq
          cases l1 with
          | nil => exact Or.inr rfl
          | cons a l1i =>
            obtain ⟨ha, hrest⟩ := List.cons.inj heq
            have : y ∈ pdedup (y :: v) rest := by
              rw [hrest]
              exact List.mem_append_right _ (List.mem_cons_self _ _)
            have := (pdedup_mem _ _ _).mp this
            exact absurd (List.mem_cons_self _ _) this.2
      · by_cases hey : e = y
        · subst hey
          intro l1 l2 heq
          cases l1 with
          | nil =>
            simp only [List.nil_append] at heq
            exact absurd (List.cons.inj heq).1 hex
          | cons a l1i =>
            obtain ⟨ha, _⟩ := List.cons.inj heq
            subst ha
            exact Or.inl (List.mem_cons_self _ _)
        · have hyne : y ≠ e := fun hq => hey hq.symm
          have ihr := ih (e :: v)
            (by simp [List.mem_cons]; push_neg; exact ⟨hyne, hyv⟩)
            (beforeFirstLe_of_cons h hyne)
          intro l1 l2 heq
          cases l1 with
          | nil =>
            simp only [List.nil_append] at heq
            exact absurd (List.cons.inj heq).1 hex
          | cons a l1i =>
            obtain ⟨ha, hrest⟩ := List.cons.inj heq
            subst ha
            rcases ihr l1i l2 hrest with h1 | h1
            · exact Or.inl (List.mem_cons_of_mem _ h1)
            · exact Or.inr h1

end ResorPlanner

namespace ResorPlanner

/-! ### Backfill lemmas -/

theorem backfill_extends : ∀ (tk : List String) (pl : List Op), Extends pl (backfill tk pl) := by
  intro tk
  induction tk with
  | nil => intro pl; exact extends_refl _
  | cons k rest ih =>
    intro pl
    rw [backfill]
    split
    · exact extends_trans (extends_append _ _) (ih _)
    · exact ih _

theorem backfill_delete_mem : ∀ (tk : List String) (pl : List Op) (m : String),
    Op.delete m ∈ backfill tk pl ↔ Op.delete m ∈ pl := by
  intro tk
  induction tk with
  | nil => intro pl m; rw [backfill]
  | cons k rest ih =>
    intro pl m
    rw [backfill]
    split
    · rw [ih]
      constructor
      · intro h
        rcases List.mem_append.mp h with h1 | h1
        · exact h1
        · simp at h1
      · intro h
        exact List.mem_append_left _ h
    · exact ih _ _

theorem backfill_create_total : ∀ (tk : List String) (pl : List Op) (n : String),
    n ∈ tk → Op.delete n ∈ pl → Op.create n ∈ backfill tk pl := by
  intro tk
  induction tk with
  | nil => intro pl n h; cases h
  | cons k rest ih =>
    intro pl n hn hdel
    rw [backfill]
    by_cases hkn : k = n
    · subst hkn
      split
      · exact extends_mem (backfill_extends _ _)
          (List.mem_append_right _ (List.mem_cons_self _ _))
      · next hcond =>
        have hc : Op.create k ∈ pl := by
          by_contra hc
          exact hcond ⟨hdel, hc⟩
        exact extends_mem (backfill_extends _ _) hc
    · have hn2 : n ∈ rest := by
        rcases List.mem_cons.mp hn with h | h
        · exact absurd h.symm hkn
        · exact h
      split
      · exact ih _ _ hn2 (List.mem_append_left _ hdel)
      · exact ih _ _ hn2 hdel

theorem backfill_eq_of_noDelete : ∀ (tk : List String) (pl : List Op),
    (∀ m, Op.delete m ∉ pl) → backfill tk pl = pl := by
  intro tk
  induction tk with
  | nil => intro pl _; rw [backfill]
  | cons k rest ih =>
    intro pl h
    rw [backfill, if_neg (fun hc => h k hc.1)]
    exact ih _ h

theorem backfill_beforeFirst {n : String} :
    ∀ (tk : List String) (pl : List Op),
      beforeFirst (Op.delete n) (Op.create n) pl →
      beforeFirst (Op.delete n) (Op.create n) (backfill tk pl) := by
  intro tk
  induction tk with
  | nil => intro pl h; rw [backfill]; exact h
  | cons k rest ih =>
    intro pl h
    rw [backfill]
    split
    · next hcond =>
      refine ih _ (beforeFirst_append h _ ?_)
      intro hz
      have hkn : k = n := Op.create.inj hz
      subst hkn
      exact hcond.1
    · exact ih _ h

theorem backfill_beforeFirstLe {B A : String} :
    ∀ (tk : List String) (pl : List Op),
      beforeFirstLe (Op.delete B) (Op.delete A) pl →
      beforeFirstLe (Op.delete B) (Op.delete A) (backfill tk pl) := by
  intro tk
  induction tk with
  | nil => intro pl h; rw [backfill]; exact h
  | cons k rest ih =>
    intro pl h
    rw [backfill]
    split
    · refine ih _ (beforeFirstLe_append h _ ?_)
      intro hz
      exact absurd hz (by simp)
    · exact ih _ h

/-! ### The main plan invariant -/

/-- Every deletion names a currently existing resource (the `_plan_delete`
assert). -/
def DelInState (P : Inp) (pl : List Op) : Prop :=
  ∀ m, Op.delete m ∈ pl → m ∈ keys P.state

/-- For a currently existing resource, any creation is strictly preceded by
a deletion of the same name. -/
def DelBeforeCreate (P : Inp) (pl : List Op) : Prop :=
  ∀ m, m ∈ keys P.state → beforeFirst (Op.delete m) (Op.create m) pl

/-- Whenever a dependency `A` of a current resource `B` is deleted, `B` was
deleted at or before that point. -/
def DepsDieFirst (P : Inp) (pl : List Op) : Prop :=
  ∀ A B rB, P.state.lookup B = some rB → A ∈ rB.deps →
    beforeFirstLe (Op.delete B) (Op.delete A) pl

def MInv (P : Inp) (pl : List Op) : Prop :=
  DelInState P pl ∧ DelBeforeCreate P pl ∧ DepsDieFirst P pl

theorem MInv_nil (P : Inp) : MInv P [] :=
  ⟨fun _ h => absurd h (by simp), fun _ _ => beforeFirst_nil _ _,
   fun _ _ _ _ _ => beforeFirstLe_nil _ _⟩

theorem MInv_append_create (P : Inp) {pl : List Op} (h : MInv P pl) (n : String)
    (hn : n ∈ keys P.state → Op.delete n ∈ pl) : MInv P (pl ++ [Op.create n]) := by
  obtain ⟨h1, h2, h3⟩ := h
  refine ⟨?_, ?_, ?_⟩
  · intro m hm
    rcases List.mem_append.mp hm with hx | hx
    · exact h1 m hx
    · simp at hx
  · intro m hm
    refine beforeFirst_append (h2 m hm) _ ?_
    intro hz
    have hnm : n = m := Op.create.inj hz
    subst hnm
    exact hn hm
  · intro A B rB hB hA
    refine beforeFirstLe_append (h3 A B rB hB hA) _ ?_
    intro hz
    exact absurd hz (by simp)

theorem MInv_append_delete (P : Inp) {pl : List Op} (h : MInv P pl) (n : String)
    (hn : n ∈ keys P.state)
    (hpred : ∀ B rB, P.state.lookup B = some rB → n ∈ rB.deps → Op.delete B ∈ pl) :
    MInv P (pl ++ [Op.delete n]) := by
  obtain ⟨h1, h2, h3⟩ := h
  refine ⟨?_, ?_, ?_⟩
  · intro m hm
    rcases List.mem_append.mp hm with hx | hx
    · exact h1 m hx
    · have hmn : m = n := by simpa using hx
      subst hmn
      exact hn
  · intro m hm
    refine beforeFirst_append (h2 m hm) _ ?_
    intro hz
    exact absurd hz (by simp)
  · intro A B rB hB hA
    refine beforeFirstLe_append (h3 A B rB hB hA) _ ?_
    intro hz
    have hna : n = A := Op.delete.inj hz
    subst hna
    exact Or.inl (hpred B rB hB hA)

/-- Side condition of the invariant proof: `_plan_create` on a currently
existing name is only reached after that name's deletion was planned. -/
def sideHyp (P : Inp) (c : Call) (st : PState) : Prop :=
  match c with
  | .createRes n => n ∈ keys P.state → Op.delete n ∈ st.plan
  | _ => True

theorem run_MInv (P : Inp) :
    ∀ (f : Nat) (c : Call) (st st' : PState),
      run P f c st = .ok st' → sideHyp P c st → MInv P st.plan → MInv P st'.plan := by
  intro f
  induction f with
  | zero => intro c st st' h _ _; simp [run] at h
  | succ f ih =>
    intro c st st' h hside hinv
    cases c with
    | applyRes n =>
      rw [run] at h
      split at h
      · cases h; exact hinv
      · split at h
        · exact ih _ _ _ h trivial hinv
        · split at h
          · rw [bind_ok_iff] at h
            obtain ⟨st2, h1, h2⟩ := h
            have hinv2 := ih _ _ _ h1 trivial hinv
            refine ih _ _ _ h2 ?_ hinv2
            intro _
            exact run_deleteRes_mem P h1
          · split at h
            · next hnot =>
              refine ih _ _ _ h ?_ hinv
              intro hmem
              exact absurd hmem hnot
            · cases h; exact hinv
    | applyMany ns =>
      cases ns with
      | nil => rw [run] at h; cases h; exact hinv
      | cons m rest =>
        rw [run] at h
        rw [bind_ok_iff] at h
        obtain ⟨st1, h1, h2⟩ := h
        exact ih _ _ _ h2 trivial (ih _ _ _ h1 trivial hinv)
    | createRes n =>
      rw [run] at h
      split at h
      · cases h
      · rw [bind_ok_iff] at h
        obtain ⟨st1, hA, h⟩ := h
        rw [bind_ok_iff] at h
        obtain ⟨st2, hB, hC⟩ := h
        cases hC
        have hinv1 := ih _ _ _ hA trivial hinv
        have hinv2 := ih _ _ _ hB trivial hinv1
        refine MInv_append_create P hinv2 n ?_
        intro hmem
        have hdel := hside hmem
        exact extends_mem (run_extends P _ _ _ _ hB)
          (extends_mem (run_extends P _ _ _ _ hA) hdel)
    | deleteRes n =>
      rw [run] at h
      split at h
      · cases h
      · next r heq =>
        rw [bind_ok_iff] at h
        obtain ⟨st1, hA, h⟩ := h
        rw [bind_ok_iff] at h
        obtain ⟨st2, hB, h⟩ := h
        rw [bind_ok_iff] at h
        obtain ⟨st3, hC, hD⟩ := h
        cases hD
        have hinv1 : MInv P st1.plan := by
          split at hA
          · exact ih _ _ _ hA trivial hinv
          · cases hA; exact hinv
        have hinv2 := ih _ _ _ hB trivial hinv1
        have hinv3 := ih _ _ _ hC trivial hinv2
        refine MInv_append_delete P hinv3 n (mem_keys_of_lookup heq) ?_
        intro B rB hBl hBd
        have hBp : B ∈ delPreds P.state n := mem_delPreds hBl hBd
        have hBm : Op.delete B ∈ st2.plan := run_deleteMany_mem P _ _ _ _ hB B hBp
        exact extends_mem (run_extends P _ _ _ _ hC) hBm
    | deleteMany ns =>
      cases ns with
      | nil => rw [run] at h; cases h; exact hinv
      | cons m rest =>
        rw [run] at h
        rw [bind_ok_iff] at h
        obtain ⟨st1, h1, h2⟩ := h
        exact ih _ _ _ h2 trivial (ih _ _ _ h1 trivial hinv)
    | deleteTools n ts =>
      cases ts with
      | nil => rw [run] at h; cases h; exact hinv
      | cons t rest =>
        rw [run] at h
        rw [bind_ok_iff] at h
        obtain ⟨st1, h1, h2⟩ := h
        have hinv1 := ih _ _ _ h1 trivial hinv
        exact ih _ _ _ h2 trivial hinv1

end ResorPlanner

namespace ResorPlanner

/-! ### Destructuring a successful `plan()` invocation -/

theorem planFull_ok_elim {P : Inp} {ap : List String} {specs : Option (List String)}
    {fuel : Nat} {ops : List Op} {aps : List String}
    (h : planFull P ap specs fuel = .ok (ops, aps)) :
    hasCycle P.state = false ∧
      ∃ st, run P fuel (.applyMany (planSpecs P specs)) { applied := [], plan := [] } = .ok st ∧
        ops = pdedup [] (backfill (keys P.target) st.plan) ∧ aps = st.applied := by
  rw [planFull] at h
  split at h
  · cases h
  · next hc =>
    refine ⟨by simpa using hc, ?_⟩
    split at h
    · cases h
    · next st hst =>
      obtain ⟨h1, h2⟩ := Prod.mk.inj (Except.ok.inj h)
      exact ⟨st, hst, h1.symm, h2.symm⟩

/-- The full invariant holds of the raw accumulated plan of a successful run. -/
theorem planFull_MInv {P : Inp} {fuel : Nat} {specs : List String} {st : PState}
    (h : run P fuel (.applyMany specs) { applied := [], plan := [] } = .ok st) :
    MInv P st.plan :=
  run_MInv P fuel _ _ _ h trivial (MInv_nil P)

/-! ### Concrete planner inputs used as witnesses and counterexamples -/

/-- The spec §8 "changed tool forces dependent replan" scenario: current and
target both hold `toolA` and `userB(tools=[toolA])`, with `toolA` changed. -/
def simpleRep : Inp :=
  ⟨[("toolA", ⟨[], []⟩), ("userB", ⟨[], ["toolA"]⟩)],
   [("toolA", ⟨[], []⟩), ("userB", ⟨[], ["toolA"]⟩)], ["toolA"]⟩

/-- Pure removal of a dependent pair: current `A`, `B(deps=[A])`, empty target. -/
def allGone : Inp := ⟨[("A", ⟨[], []⟩), ("B", ⟨["A"], []⟩)], [], []⟩

/-- C2: for every input on which `plan()` succeeds and every name in the
changed set present in both collections, if both `Delete(name)` and
`Create(name)` appear in the output, the delete occurs strictly before the
create. -/
theorem c2_delete_precedes_recreation (P : Inp) (ap : List String)
    (specs : Option (List String)) (fuel : Nat) (ops : List Op) (aps : List String)
    (n : String) (h : planFull P ap specs fuel = .ok (ops, aps))
    (hchg : n ∈ P.changed) (hst : n ∈ keys P.state) (htg : n ∈ keys P.target)
    (hdel : Op.delete n ∈ ops) (hcr : Op.create n ∈ ops) :
    beforeFirst (Op.delete n) (Op.create n) ops := by
  obtain ⟨-, st, hrun, hops, -⟩ := planFull_ok_elim h
  subst hops
  have hinv := planFull_MInv hrun
  have h1 := hinv.2.1 n hst
  exact pdedup_beforeFirst [] _ (by simp) (backfill_beforeFirst _ _ h1)

/-- C2 witness at the `simpleRep` input, name `toolA`. -/
theorem c2_witness :
    planFull simpleRep [] none 30 =
      .ok ([Op.delete "toolA", Op.create "toolA"], ["userB", "toolA"]) ∧
    beforeFirst (Op.delete "toolA") (Op.create "toolA")
      [Op.delete "toolA", Op.create "toolA"] :=
  ⟨by decide, c2_delete_precedes_recreation simpleRep [] none 30
    [Op.delete "toolA", Op.create "toolA"] ["userB", "toolA"] "toolA" (by decide)
    (by decide) (by decide) (by decide) (by decide) (by decide)⟩

/-- C3: for every input on which `plan()` succeeds and every name in the
target collection, if `Delete(name)` appears in the output then
`Create(name)` also appears, at a later position. -/
theorem c3_target_coverage (P : Inp) (ap : List String)
    (specs : Option (List String)) (fuel : Nat) (ops : List Op) (aps : List String)
    (n : String) (h : planFull P ap specs fuel = .ok (ops, aps))
    (htg : n ∈ keys P.target) (hdel : Op.delete n ∈ ops) :
    Op.create n ∈ ops ∧ beforeFirst (Op.delete n) (Op.create n) ops := by
  obtain ⟨-, st, hrun, hops, -⟩ := planFull_ok_elim h
  subst hops
  have hinv := planFull_MInv hrun
  have hdel2 : Op.delete n ∈ backfill (keys P.target) st.plan :=
    ((pdedup_mem _ _ _).mp hdel).1
  have hdel3 : Op.delete n ∈ st.plan := (backfill_delete_mem _ _ _).mp hdel2
  have hst : n ∈ keys P.state := hinv.1 n hdel3
  have hbf : beforeFirst (Op.delete n) (Op.create n) (backfill (keys P.target) st.plan) :=
    backfill_beforeFirst _ _ (hinv.2.1 n hst)
  refine ⟨?_, pdedup_beforeFirst [] _ (by simp) hbf⟩
  exact (pdedup_mem _ _ _).mpr ⟨backfill_create_total _ _ n htg hdel3, by simp⟩

/-- C3 witness at the `simpleRep` input, name `toolA`. -/
theorem c3_witness :
    Op.create "toolA" ∈ [Op.delete "toolA", Op.create "toolA"] ∧
    beforeFirst (Op.delete "toolA") (Op.create "toolA")
      [Op.delete "toolA", Op.create "toolA"] :=
  c3_target_coverage simpleRep [] none 30 [Op.delete "toolA", Op.create "toolA"]
    ["userB", "toolA"] "toolA" (by decide) (by decide) (by decide)

/-- C4: for every input on which `plan()` succeeds, if current resource `B`
lists `A` among its deps and `Delete(A)` appears in the output, then
`Delete(B)` appears at or before `Delete(A)`. -/
theorem c4_dependents_die_first (P : Inp) (ap : List String)
    (specs : Option (List String)) (fuel : Nat) (ops : List Op) (aps : List String)
    (A B : String) (rB : Resource) (h : planFull P ap specs fuel = .ok (ops, aps))
    (hB : P.state.lookup B = some rB) (hA : A ∈ rB.deps)
    (hdel : Op.delete A ∈ ops) :
    Op.delete B ∈ ops ∧ beforeFirstLe (Op.delete B) (Op.delete A) ops := by
  obtain ⟨-, st, hrun, hops, -⟩ := planFull_ok_elim h
  subst hops
  have hinv := planFull_MInv hrun
  have hle : beforeFirstLe (Op.delete B) (Op.delete A) (backfill (keys P.target) st.plan) :=
    backfill_beforeFirstLe _ _ (hinv.2.2 A B rB hB hA)
  have hle2 := pdedup_beforeFirstLe [] _ (by simp) hle
  exact ⟨beforeFirstLe_mem hle2 hdel, hle2⟩

/-- C4 witness at the `allGone` input: `B(deps=[A])` is deleted before `A`. -/
theorem c4_witness :
    Op.delete "B" ∈ [Op.delete "B", Op.delete "A"] ∧
    beforeFirstLe (Op.delete "B") (Op.delete "A") [Op.delete "B", Op.delete "A"] :=
  c4_dependents_die_first allGone [] none 30 [Op.delete "B", Op.delete "A"] ["B", "A"]
    "A" "B" ⟨["A"], []⟩ (by decide) (by decide) (by decide) (by decide)

/-- C7: for every input on which `plan()` succeeds, no `(kind, name)` pair
occurs more than once in the output sequence. -/
theorem c7_no_duplicates (P : Inp) (ap : List String) (specs : Option (List String))
    (fuel : Nat) (ops : List Op) (aps : List String)
    (h : planFull P ap specs fuel = .ok (ops, aps)) : ops.Nodup := by
  obtain ⟨-, st, -, hops, -⟩ := planFull_ok_elim h
  subst hops
  exact pdedup_nodup _ _

/-- C7 witness at the `simpleRep` input. -/
theorem c7_witness : ([Op.delete "toolA", Op.create "toolA"] : List Op).Nodup :=
  c7_no_duplicates simpleRep [] none 30 [Op.delete "toolA", Op.create "toolA"]
    ["userB", "toolA"] (by decide)

/-- C8: `plan()` clears the `_applied` memo on entry, so for fixed inputs the
result is independent of the memo contents a previous invocation left
behind: two successive invocations yield identical operation sequences. -/
theorem c8_determinism (P : Inp) (ap1 ap2 : List String)
    (specs : Option (List String)) (fuel : Nat) :
    planFull P ap1 specs fuel = planFull P ap2 specs fuel := rfl

/-- C9: resolving a name that is changed and in the target but absent from
the current state enters the deletion path, whose `assert name in
self._state` fails: the run aborts with an assertion error rather than
planning a plain creation. -/
theorem c9_changed_but_new_asserts (P : Inp) (f : Nat) (n : String) (st : PState)
    (hchg : n ∈ P.changed) (htg : n ∈ keys P.target) (hst : n ∉ keys P.state)
    (happ : n ∉ st.applied) :
    run P (f + 2) (.applyRes n) st = .error .assertionFailed := by
  have hl : P.state.lookup n = none := lookup_none_iff.mpr hst
  have hdel : run P (f + 1) (.deleteRes n) { st with applied := n :: st.applied } =
      Except.error .assertionFailed := by
    rw [run, hl]
  rw [run, if_neg happ, if_neg (fun hh : n ∉ keys P.target => hh htg), if_pos hchg, hdel]
  rfl

/-- C9 witness: a concrete input with `n` changed, targeted, but not current. -/
theorem c9_witness :
    run ⟨[], [("n", ⟨[], []⟩)], ["n"]⟩ 5 (.applyRes "n") { applied := [], plan := [] } =
      .error .assertionFailed :=
  c9_changed_but_new_asserts ⟨[], [("n", ⟨[], []⟩)], ["n"]⟩ 3 "n" _
    (by decide) (by decide) (by decide) (by decide)

/-- C10: an empty specifier list is falsy in Python, so `plan([])` behaves
exactly like `plan()` — both fall back to the sorted union of all names. -/
theorem c10_empty_specifiers (P : Inp) (ap : List String) (fuel : Nat) :
    planFull P ap (some []) fuel = planFull P ap none fuel := rfl

/-- C1 counterexample: on the C1 scenario input the full plan is exactly
`Delete(toolA), Create(toolA)` — not the claimed four-operation sequence
that deletes and recreates `userB` as well. -/
theorem c1_counterexample :
    Except.map Prod.fst (planFull simpleRep [] none 30) =
      .ok [Op.delete "toolA", Op.create "toolA"] ∧
    ([Op.delete "toolA", Op.create "toolA"] : List Op) ≠
      [Op.delete "userB", Op.delete "toolA", Op.create "toolA", Op.create "userB"] :=
  ⟨by decide, by decide⟩

/-- C1 amended: on the scenario input (current = target = `toolA`,
`userB(tools=[toolA])`, changed = `{toolA}`), the full plan is exactly
`Delete(toolA), Create(toolA)`: `userB` is resolved as a tool-graph
predecessor, but being present in both collections and unchanged it is not
replanned. -/
theorem c1_amended :
    Except.map Prod.fst (planFull simpleRep [] none 30) =
      .ok [Op.delete "toolA", Op.create "toolA"] := by decide

end ResorPlanner

namespace ResorPlanner

/-! ### Cycle detection: a directed cycle in the composed current-state
graph is found by the bounded search of `hasCycle` -/

theorem unionStep_src_mem {s : Coll} {a b : String} (h : unionStep s a b) :
    a ∈ keys s := by
  cases hl : s.lookup a with
  | none =>
    simp only [unionStep, unionSuccs, hl] at h
    exact absurd h (by simp)
  | some r => exact mem_keys_of_lookup hl

theorem tg_chain {s : Coll} {a b : String} (h : Relation.TransGen (unionStep s) a b) :
    ∃ l, List.Chain (unionStep s) a (l ++ [b]) := by
  induction h with
  | single e =>
    refine ⟨[], ?_⟩
    simp only [List.nil_append, List.chain_cons, List.Chain.nil]
    exact ⟨e, trivial⟩
  | @tail bm c hab e ih =>
    obtain ⟨l, hl⟩ := ih
    refine ⟨l ++ [bm], ?_⟩
    have heq : (l ++ [bm]) ++ [c] = l ++ bm :: [c] := by simp
    rw [heq]
    refine List.chain_split.mpr ⟨hl, ?_⟩
    simp only [List.chain_cons, List.Chain.nil]
    exact ⟨e, trivial⟩

theorem chain_src_keys {s : Coll} : ∀ (a : String) (l : List String) (b : String),
    List.Chain (unionStep s) a (l ++ [b]) → ∀ x ∈ a :: l, x ∈ keys s := by
  intro a l
  induction l generalizing a with
  | nil =>
    intro b h x hx
    rcases List.mem_cons.mp hx with rfl | h2
    · exact unionStep_src_mem (List.chain_cons.mp h).1
    · cases h2
  | cons c ll ih =>
    intro b h x hx
    have hh := List.chain_cons.mp h
    rcases List.mem_cons.mp hx with rfl | h2
    · exact unionStep_src_mem hh.1
    · exact ih c b hh.2 x h2

theorem not_nodup_split : ∀ (l : List String), ¬ l.Nodup →
    ∃ l1 x l2 l3, l = l1 ++ x :: l2 ++ x :: l3 := by
  intro l
  induction l with
  | nil => intro h; exact absurd List.nodup_nil h
  | cons a l ih =>
    intro h
    by_cases ha : a ∈ l
    · obtain ⟨l2, l3, rfl⟩ := List.append_of_mem ha
      exact ⟨[], a, l2, l3, by simp⟩
    · have hnd : ¬ l.Nodup := fun hn => h (List.nodup_cons.mpr ⟨ha, hn⟩)
      obtain ⟨l1, x, l2, l3, rfl⟩ := ih hnd
      exact ⟨a :: l1, x, l2, l3, by simp⟩

theorem cycle_shorten {s : Coll} : ∀ (k : Nat) (l : List String) (n : String),
    l.length ≤ k → List.Chain (unionStep s) n (l ++ [n]) →
    ∃ m l2, List.Chain (unionStep s) m (l2 ++ [m]) ∧ l2.length + 1 ≤ (keys s).length := by
  intro k
  induction k with
  | zero =>
    intro l n hlen h
    have hl : l = [] := List.eq_nil_of_length_eq_zero (Nat.le_zero.mp hlen)
    subst hl
    refine ⟨n, [], h, ?_⟩
    have hn : n ∈ keys s := chain_src_keys n [] n h n (List.mem_cons_self _ _)
    have := List.length_pos_of_mem hn
    omega
  | succ k ih =>
    intro l n hlen h
    by_cases hnd : (n :: l).Nodup
    · refine ⟨n, l, h, ?_⟩
      have hsub : (n :: l) ⊆ keys s := fun x hx => chain_src_keys n l n h x hx
      have hle := (hnd.subperm hsub).length_le
      simpa using hle
    · obtain ⟨l1, x, l2, l3, heq⟩ := not_nodup_split _ hnd
      cases l1 with
      | nil =>
        simp only [List.nil_append] at heq
        obtain ⟨hnx, hl⟩ := List.cons.inj heq
        subst hnx
        subst hl
        have h2 : List.Chain (unionStep s) n (l2 ++ n :: (l3 ++ [n])) := by
          rw [show l2 ++ n :: (l3 ++ [n]) = (l2 ++ n :: l3) ++ [n] by simp]
          exact h
        have hsplit := (List.chain_split.mp h2).1
        refine ih l2 n ?_ hsplit
        have hlen2 : (l2 ++ n :: l3).length ≤ k + 1 := hlen
        simp only [List.length_append, List.length_cons] at hlen2
        omega
      | cons a l1i =>
        obtain ⟨hna, hl⟩ := List.cons.inj heq
        subst hna
        subst hl
        have h2 : List.Chain (unionStep s) n (l1i ++ x :: (l2 ++ x :: (l3 ++ [n]))) := by
          rw [show l1i ++ x :: (l2 ++ x :: (l3 ++ [n])) =
            (l1i ++ x :: l2 ++ x :: l3) ++ [n] by simp]
          exact h
        have hs1 := (List.chain_split.mp h2).2
        have hs2 := (List.chain_split.mp hs1).1
        refine ih l2 x ?_ hs2
        have hlen2 : (l1i ++ x :: l2 ++ x :: l3).length ≤ k + 1 := hlen
        simp only [List.length_append, List.length_cons] at hlen2
        omega

theorem chain_creachN {s : Coll} : ∀ (l : List String) (a b : String) (f : Nat),
    List.Chain (unionStep s) a (l ++ [b]) → l.length + 1 ≤ f → creachN s f a b = true := by
  intro l
  induction l with
  | nil =>
    intro a b f h hf
    cases f with
    | zero => omega
    | succ f =>
      rw [creachN]
      have he : unionStep s a b := (List.chain_cons.mp h).1
      refine List.any_eq_true.mpr ⟨b, he, ?_⟩
      simp
  | cons c ll ih =>
    intro a b f h hf
    cases f with
    | zero => omega
    | succ f =>
      rw [creachN]
      have hh := List.chain_cons.mp h
      refine List.any_eq_true.mpr ⟨c, hh.1, ?_⟩
      have hrec := ih c b f hh.2 (by
        simp only [List.length_cons] at hf
        omega)
      simp [hrec]

theorem hasCycle_of_cycle {s : Coll} (h : ∃ n, Relation.TransGen (unionStep s) n n) :
    hasCycle s = true := by
  obtain ⟨n, htg⟩ := h
  obtain ⟨l, hch⟩ := tg_chain htg
  obtain ⟨m, l2, hc2, hlen⟩ := cycle_shorten l.length l n (le_refl _) hch
  rw [hasCycle]
  refine List.any_eq_true.mpr ⟨m, ?_, ?_⟩
  · exact chain_src_keys m l2 m hc2 m (List.mem_cons_self _ _)
  · refine chain_creachN l2 m m s.length hc2 ?_
    have hk : (keys s).length = s.length := by simp [keys]
    omega

/-- C6: if the union of the consumer and tool-usage edges derived from the
current collection contains a directed cycle, `plan()` fails with the
cycle error before any operation is produced; no partial plan is
returned. -/
theorem c6_cycle_rejection (P : Inp) (ap : List String) (specs : Option (List String))
    (fuel : Nat) (h : ∃ n, Relation.TransGen (unionStep P.state) n n) :
    planFull P ap specs fuel = .error .cycleDetected := by
  rw [planFull, if_pos (hasCycle_of_cycle h)]

/-- The C6 scenario input: current `X` depends on `Y` and `Y` depends on `X`. -/
def cycXY : Inp := ⟨[("X", ⟨["Y"], []⟩), ("Y", ⟨["X"], []⟩)], [], []⟩

/-- C6 witness: the two-resource dependency cycle is rejected. -/
theorem c6_witness : planFull cycXY [] none 30 = .error .cycleDetected := by
  refine c6_cycle_rejection cycXY [] none 30 ⟨"X", ?_⟩
  have e1 : unionStep cycXY.state "X" "Y" := by
    simp only [unionStep]
    decide
  have e2 : unionStep cycXY.state "Y" "X" := by
    simp only [unionStep]
    decide
  exact Relation.TransGen.head e1 (Relation.TransGen.single e2)

end ResorPlanner

namespace ResorPlanner

/-! ### Tools-before-users on the pure creation fragment (C5) -/

/-- Successors of `n` in the creation-resolution graph: the tools and deps
of the definition `_plan_create` would use (target first, state fallback). -/
def createSuccs (P : Inp) (n : String) : List String :=
  match createLookup P n with
  | some r => r.tools ++ r.deps
  | none => []

/-- One creation-resolution edge. -/
def cStep (P : Inp) (a b : String) : Prop := b ∈ createSuccs P a

/-- Reflexive-transitive reachability along creation-resolution edges. -/
def cReach (P : Inp) (a b : String) : Prop := Relation.ReflTransGen (cStep P) a b

/-- The creation-resolution relation admits no directed cycle. -/
def CreateAcyclic (P : Inp) : Prop := ∀ a b, cStep P a b → cReach P b a → False

/-- The silent branch of `_apply_resource`: present in both collections and
unchanged, so resolving the name plans nothing. -/
def noopClean (P : Inp) (n : String) : Prop :=
  n ∈ keys P.target ∧ n ∉ P.changed ∧ n ∈ keys P.state

/-- A name marked applied whose processing is still in progress: no create
emitted yet, and not the silent no-op case. -/
def unhandled (P : Inp) (st : PState) (m : String) : Prop :=
  m ∈ st.applied ∧ Op.create m ∉ st.plan ∧ ¬ noopClean P m

/-- Every creation of a resource is preceded by creations of its (non-noop)
tools. -/
def ToolsBeforeUsers (P : Inp) (pl : List Op) : Prop :=
  ∀ R T rR, createLookup P R = some rR → T ∈ rR.tools → ¬ noopClean P T →
    beforeFirst (Op.create T) (Op.create R) pl

/-- A name in the silent no-op case is never created on a delete-free run. -/
def NoopNoCreate (P : Inp) (pl : List Op) : Prop :=
  ∀ m, noopClean P m → Op.create m ∉ pl

def CInv (P : Inp) (pl : List Op) : Prop := ToolsBeforeUsers P pl ∧ NoopNoCreate P pl

theorem CInv_nil (P : Inp) : CInv P [] :=
  ⟨fun _ _ _ _ _ _ => beforeFirst_nil _ _, fun _ _ h => absurd h (by simp)⟩

theorem createLookup_mem {P : Inp} {n : String} {r : Resource}
    (h : createLookup P n = some r) : (n, r) ∈ P.target ∨ (n, r) ∈ P.state := by
  rw [createLookup] at h
  split at h
  · next rt heq =>
    cases h
    exact Or.inl (lookup_mem heq)
  · exact Or.inr (lookup_mem h)

/-- Conclusions of the delete-free analysis, per call kind. -/
def CGoal (P : Inp) (c : Call) (st st' : PState) : Prop :=
  match c with
  | .applyRes n =>
      (∀ m, unhandled P st m → cReach P m n) → CInv P st.plan →
      CInv P st'.plan ∧ (∀ m, unhandled P st' m → unhandled P st m) ∧
        (¬ noopClean P n → Op.create n ∈ st'.plan ∨ unhandled P st n)
  | .applyMany ns =>
      (∀ m, unhandled P st m → ∀ c2 ∈ ns, cReach P m c2) → CInv P st.plan →
      CInv P st'.plan ∧ (∀ m, unhandled P st' m → unhandled P st m) ∧
        (∀ c2 ∈ ns, ¬ noopClean P c2 → Op.create c2 ∈ st'.plan ∨ unhandled P st c2)
  | .createRes n =>
      ¬ noopClean P n →
      (∀ m, unhandled P st m → cReach P m n) → CInv P st.plan →
      CInv P st'.plan ∧ (∀ m, unhandled P st' m → unhandled P st m) ∧
        Op.create n ∈ st'.plan
  | .deleteRes _ => False
  | .deleteMany _ => True
  | .deleteTools _ _ => True

theorem run_CInv (P : Inp) (hacyc : CreateAcyclic P) :
    ∀ (f : Nat) (c : Call) (st st' : PState),
      run P f c st = .ok st' → (∀ m, Op.delete m ∉ st'.plan) → CGoal P c st st' := by
  intro f
  induction f with
  | zero => intro c st st' h _; simp [run] at h
  | succ f ih =>
    intro c st st' h hnd
    cases c with
    | applyRes n =>
      rw [run] at h
      split at h
      · next happ =>
        cases h
        intro _ hinv
        refine ⟨hinv, fun m hm => hm, ?_⟩
        intro hnn
        by_cases hc : Op.create n ∈ st.plan
        · exact Or.inl hc
        · exact Or.inr ⟨happ, hc, hnn⟩
      · split at h
        · exact absurd (run_deleteRes_mem P h) (hnd n)
        · split at h
          · rw [bind_ok_iff] at h
            obtain ⟨st2, h1, h2⟩ := h
            have hd : Op.delete n ∈ st'.plan :=
              extends_mem (run_extends P _ _ _ _ h2) (run_deleteRes_mem P h1)
            exact absurd hd (hnd n)
          · split at h
            · next hnst =>
              intro hstk hinv
              have hnn : ¬ noopClean P n := fun hno => hnst hno.2.2
              have hstk1 : ∀ m, unhandled P { st with applied := n :: st.applied } m →
                  cReach P m n := by
                intro m hm
                rcases List.mem_cons.mp hm.1 with rfl | hmem
                · exact Relation.ReflTransGen.refl
                · exact hstk m ⟨hmem, hm.2.1, hm.2.2⟩
              have hg := ih _ _ _ h hnd
              obtain ⟨hinv2, hqui, hcr⟩ := hg hnn hstk1 hinv
              refine ⟨hinv2, ?_, fun _ => Or.inl hcr⟩
              intro m hm
              have hm1 := hqui m hm
              rcases List.mem_cons.mp hm1.1 with rfl | hmem
              · exact absurd hcr hm.2.1
              · exact ⟨hmem, hm1.2.1, hm1.2.2⟩
            · next hnt hnc hns =>
              cases h
              intro _ hinv
              have hnoop : noopClean P n :=
                ⟨not_not.mp hnt, hnc, not_not.mp hns⟩
              refine ⟨hinv, ?_, fun hnn => absurd hnoop hnn⟩
              intro m hm
              rcases List.mem_cons.mp hm.1 with rfl | hmem
              · exact absurd hnoop hm.2.2
              · exact ⟨hmem, hm.2.1, hm.2.2⟩
    | applyMany ns =>
      cases ns with
      | nil =>
        rw [run] at h
        cases h
        intro _ hinv
        exact ⟨hinv, fun m hm => hm, fun c2 hc2 => absurd hc2 (by simp)⟩
      | cons mm rest =>
        rw [run] at h
        rw [bind_ok_iff] at h
        obtain ⟨st1, h1, h2⟩ := h
        intro hstk hinv
        have hnd1 : ∀ q, Op.delete q ∉ st1.plan := fun q hq =>
          hnd q (extends_mem (run_extends P _ _ _ _ h2) hq)
        have hg1 := ih _ _ _ h1 hnd1
        obtain ⟨hinv1, hq1, hc1⟩ :=
          hg1 (fun q hq => hstk q hq mm (List.mem_cons_self _ _)) hinv
        have hg2 := ih _ _ _ h2 hnd
        obtain ⟨hinv2, hq2, hc2⟩ := hg2
          (fun q hq c2 hc2 => hstk q (hq1 q hq) c2 (List.mem_cons_of_mem _ hc2)) hinv1
        refine ⟨hinv2, fun q hq => hq1 q (hq2 q hq), ?_⟩
        intro c2 hc2m hnn
        rcases List.mem_cons.mp hc2m with rfl | hr
        · rcases hc1 hnn with hcr | hup
          · exact Or.inl (extends_mem (run_extends P _ _ _ _ h2) hcr)
          · exact Or.inr hup
        · rcases hc2 c2 hr hnn with hcr | hup
          · exact Or.inl hcr
          · exact Or.inr (hq1 c2 hup)
    | createRes n =>
      rw [run] at h
      split at h
      · cases h
      · next r heq =>
        rw [bind_ok_iff] at h
        obtain ⟨st1, hA, h⟩ := h
        rw [bind_ok_iff] at h
        obtain ⟨st2, hB, hC⟩ := h
        cases hC
        intro hnn hstk hinv
        have hsucc : createSuccs P n = r.tools ++ r.deps := by
          rw [createSuccs, heq]
        have hndst2 : ∀ q, Op.delete q ∉ st2.plan := fun q hq =>
          hnd q (List.mem_append_left _ hq)
        have hndst1 : ∀ q, Op.delete q ∉ st1.plan := fun q hq =>
          hndst2 q (extends_mem (run_extends P _ _ _ _ hB) hq)
        have hg1 := ih _ _ _ hA hndst1
        obtain ⟨hinv1, hq1, hfacts1⟩ := hg1
          (fun q hq c2 hc2 => Relation.ReflTransGen.tail (hstk q hq)
            (show cStep P n c2 by
              rw [cStep, hsucc]
              exact List.mem_append_left _ hc2)) hinv
        have hg2 := ih _ _ _ hB hndst2
        obtain ⟨hinv2, hq2, -⟩ := hg2
          (fun q hq c2 hc2 => Relation.ReflTransGen.tail (hstk q (hq1 q hq))
            (show cStep P n c2 by
              rw [cStep, hsucc]
              exact List.mem_append_right _ hc2)) hinv1
        refine ⟨⟨?_, ?_⟩, ?_, ?_⟩
        · intro R T rT hRl hTt hTnn
          refine beforeFirst_append (hinv2.1 R T rT hRl hTt hTnn) _ ?_
          intro hz
          have hnR : n = R := Op.create.inj hz
          subst hnR
          have hrr : rT = r := by
            rw [heq] at hRl
            exact (Option.some.inj hRl).symm
          subst hrr
          rcases hfacts1 T hTt hTnn with hcr | hup
          · exact extends_mem (run_extends P _ _ _ _ hB) hcr
          · have hedge : cStep P n T := by
              rw [cStep, hsucc]
              exact List.mem_append_left _ hTt
            exact absurd (hstk T hup) (fun hre => hacyc n T hedge hre)
        · intro q hno hmem
          rcases List.mem_append.mp hmem with hx | hx
          · exact hinv2.2 q hno hx
          · have hqe : Op.create q = Op.create n := by simpa using hx
            have hqn : q = n := Op.create.inj hqe
            subst hqn
            exact hnn hno
        · intro q hq
          have hq2m : unhandled P st2 q := ⟨hq.1, fun hc => hq.2.1 (List.mem_append_left _ hc), hq.2.2⟩
          exact hq1 q (hq2 q hq2m)
        · exact List.mem_append_right _ (List.mem_cons_self _ _)
    | deleteRes n => exact absurd (run_deleteRes_mem P h) (hnd n)
    | deleteMany ns => trivial
    | deleteTools n ts => trivial

end ResorPlanner

namespace ResorPlanner

/-- Target-only creation graph with a tool-dep cycle through target
definitions: `a(deps=[b])`, `b(tools=[a])`, empty current state. The
current-state cycle validation cannot see it. -/
def cexTargetCycle : Inp := ⟨[], [("a", ⟨["b"], []⟩), ("b", ⟨[], ["a"]⟩)], []⟩

/-- A mixed create/delete weave: current `b`, `c(tools=[b])`; target drops
`b`, keeps `c` (changed) and adds `a(deps=[b])` and `d(tools=[a])`. Both the
current-state union graph and the creation-resolution relation are acyclic,
yet the interleaved delete recursion emits `Create(d)` before `Create(a)`
although `a` is a tool of `d`. -/
def cexWeave : Inp :=
  ⟨[("b", ⟨[], []⟩), ("c", ⟨[], ["b"]⟩)],
   [("a", ⟨["b"], []⟩), ("c", ⟨["d"], ["b"]⟩), ("d", ⟨[], ["a"]⟩)], ["c"]⟩

/-- C5 counterexample: the claim as stated fails. On `cexTargetCycle` the
output is `Create(b), Create(a)` with `a ∈ b.tools`, both newly created and
never deleted, yet `Create(b)` comes first; on `cexWeave` (whose
creation-resolution relation is acyclic but whose run emits deletes of
other resources) the output has `Create(d)` before `Create(a)` although
`a ∈ d.tools` and neither `a` nor `d` is deleted. -/
theorem c5_counterexample :
    (Except.map Prod.fst (planFull cexTargetCycle [] none 30) =
        .ok [Op.create "b", Op.create "a"] ∧
      createLookup cexTargetCycle "b" = some ⟨[], ["a"]⟩ ∧
      "a" ∈ (Resource.mk [] ["a"]).tools ∧
      ¬ beforeFirst (Op.create "a") (Op.create "b") [Op.create "b", Op.create "a"]) ∧
    (Except.map Prod.fst (planFull cexWeave [] none 30) =
        .ok [Op.delete "c", Op.create "d", Op.create "c", Op.delete "b", Op.create "a"] ∧
      createLookup cexWeave "d" = some ⟨[], ["a"]⟩ ∧
      Op.delete "a" ∉ [Op.delete "c", Op.create "d", Op.create "c", Op.delete "b",
        Op.create "a"] ∧
      Op.delete "d" ∉ [Op.delete "c", Op.create "d", Op.create "c", Op.delete "b",
        Op.create "a"] ∧
      ¬ beforeFirst (Op.create "a") (Op.create "d")
        [Op.delete "c", Op.create "d", Op.create "c", Op.delete "b", Op.create "a"]) := by
  refine ⟨⟨by decide, by decide, by decide, ?_⟩, by decide, by decide, by decide, by decide, ?_⟩
  · intro hb
    exact absurd (hb [] [Op.create "a"] rfl) (by simp)
  · intro hb
    exact absurd (hb [Op.delete "c"] [Op.create "c", Op.delete "b", Op.create "a"] rfl)
      (by simp)

/-- C5 amended: for every input on which `plan()` succeeds with an output
containing no `Delete` operation at all, and whose creation-resolution
relation (tools and deps of the target-first definitions) is acyclic: if
`T` is listed in the tools of `R`'s creation definition and both
`Create(T)` and `Create(R)` appear in the output, then `Create(T)` occurs
strictly before `Create(R)`. -/
theorem c5_tools_precede_users (P : Inp) (ap : List String)
    (specs : Option (List String)) (fuel : Nat) (ops : List Op) (aps : List String)
    (R T : String) (rR : Resource)
    (h : planFull P ap specs fuel = .ok (ops, aps))
    (hnd : ∀ m, Op.delete m ∉ ops)
    (hacyc : CreateAcyclic P)
    (hR : createLookup P R = some rR) (hT : T ∈ rR.tools)
    (hTm : Op.create T ∈ ops) (hRm : Op.create R ∈ ops) :
    beforeFirst (Op.create T) (Op.create R) ops := by
  obtain ⟨-, st, hrun, hops, -⟩ := planFull_ok_elim h
  have hndraw : ∀ m, Op.delete m ∉ st.plan := by
    intro m hm
    apply hnd m
    rw [hops]
    exact (pdedup_mem _ _ _).mpr ⟨extends_mem (backfill_extends _ _) hm, by simp⟩
  have hbk : backfill (keys P.target) st.plan = st.plan :=
    backfill_eq_of_noDelete _ _ hndraw
  subst hops
  rw [hbk] at hTm hRm ⊢
  have hg := run_CInv P hacyc fuel (.applyMany (planSpecs P specs)) _ _ hrun hndraw
  obtain ⟨hinv, -, -⟩ := hg (fun m hm => absurd hm.1 (by simp)) (CInv_nil P)
  have hTmem : Op.create T ∈ st.plan := ((pdedup_mem _ _ _).mp hTm).1
  have hTnn : ¬ noopClean P T := fun hno => hinv.2 T hno hTmem
  exact pdedup_beforeFirst [] _ (by simp) (hinv.1 R T rR hR hT hTnn)

/-- Pure addition of a tool and its user: empty state, target
`r(tools=[t])`, `t`. -/
def pureAdd : Inp := ⟨[], [("r", ⟨[], ["t"]⟩), ("t", ⟨[], []⟩)], []⟩

/-- C5 witness at the `pureAdd` input: `Create(t)` precedes `Create(r)`. -/
theorem c5_witness :
    beforeFirst (Op.create "t") (Op.create "r") [Op.create "t", Op.create "r"] := by
  have hstep : ∀ a b : String, cStep pureAdd a b → a = "r" ∧ b = "t" := by
    intro a b hab
    rw [cStep] at hab
    cases hcl : createLookup pureAdd a with
    | none =>
      rw [createSuccs, hcl] at hab
      exact absurd hab (by simp)
    | some r =>
      rw [createSuccs, hcl] at hab
      rcases createLookup_mem hcl with hm | hm
      · rcases List.mem_cons.mp hm with hp | hp
        · obtain ⟨ha, hr⟩ := Prod.mk.inj hp
          subst ha
          subst hr
          refine ⟨rfl, ?_⟩
          simpa using hab
        · rcases List.mem_cons.mp hp with hp2 | hp2
          · obtain ⟨ha, hr⟩ := Prod.mk.inj hp2
            subst hr
            exact absurd hab (by simp)
          · exact absurd hp2 (by simp)
      · exact absurd hm (by simp [pureAdd])
  have hacyc : CreateAcyclic pureAdd := by
    intro a b hab hre
    obtain ⟨ha, hb⟩ := hstep a b hab
    subst ha
    subst hb
    rcases hre.cases_head with heqv | ⟨c, hc, -⟩
    · exact absurd heqv (by decide)
    · exact absurd (hstep _ _ hc).1 (by decide)
  exact c5_tools_precede_users pureAdd [] none 30 [Op.create "t", Op.create "r"]
    ["t", "r"] "r" "t" ⟨[], ["t"]⟩ (by decide) (fun m => by simp) hacyc
    (by decide) (by decide) (by decide) (by decide)

end ResorPlanner
